import Mathlib

/-!
Verification of the GBM simulator and Black-Scholes call pricer found in
`simulation.py` and `simulation2.py`.

The two Python files are embedded shallowly over the real numbers:

* `scipy.stats.norm.cdf` becomes `stdNormCdf`, the integral of the standard
  normal density over `Iic x`;
* the pricers `black_scholes_call_price` (simulation.py, with dividend yield)
  and `black_scholes_call` (simulation2.py) become real-valued functions with
  the same branch structure;
* the path simulators become functions of an explicit stream of standard
  normal draws.  `np.random.seed (s)` pins the global generator's stream to a
  function of `s` alone, while `np.random.seed ()` re-seeds it from fresh OS
  entropy; accordingly the simulators take the seeded stream family `ofSeed`
  and the entropy-determined stream `fresh` as parameters.
* Python runtime failures (`ZeroDivisionError` on division by an integer
  zero, `ValueError` from `np.random.normal` on a negative size) are embedded
  with `Except`.
-/

open MeasureTheory Set Filter Topology

noncomputable section

/-- Density of the standard normal distribution (mean 0, variance 1). -/
def stdNormPdf (t : ℝ) : ℝ := Real.exp (-(t ^ 2) / 2) / Real.sqrt (2 * Real.pi)

/-- Cumulative distribution function of the standard normal distribution,
the mathematical function computed by `scipy.stats.norm.cdf`. -/
def stdNormCdf (x : ℝ) : ℝ := ∫ t in Set.Iic x, stdNormPdf t

/-- Shallow embedding of `black_scholes_call_price` from `src/simulation.py`.
The Python default `dividend=0.0` is passed explicitly here. -/
def black_scholes_call_price (spot strike time_to_maturity rate volatility dividend : ℝ) : ℝ :=
  if time_to_maturity ≤ 0 then max (spot - strike) 0
  else
    let d1 := (Real.log (spot / strike) +
        (rate - dividend + 0.5 * volatility ^ 2) * time_to_maturity) /
      (volatility * Real.sqrt time_to_maturity)
    let d2 := d1 - volatility * Real.sqrt time_to_maturity
    spot * Real.exp (-dividend * time_to_maturity) * stdNormCdf d1 -
      strike * Real.exp (-rate * time_to_maturity) * stdNormCdf d2

/-- Shallow embedding of `black_scholes_call` from `src/simulation2.py`. -/
def black_scholes_call (s k T r sigma : ℝ) : ℝ :=
  if T ≤ 0 then max (s - k) 0
  else
    let d1 := (Real.log (s / k) + (r + 0.5 * sigma ^ 2) * T) / (sigma * Real.sqrt T)
    let d2 := d1 - sigma * Real.sqrt T
    s * stdNormCdf d1 - k * Real.exp (-r * T) * stdNormCdf d2

/-- Error kinds surfaced by the Python code: `ZeroDivisionError` (integer or
float divided by an integer zero), `ValueError` (raised by
`np.random.normal` when asked for a negative number of draws), and
`InvalidParameter`, the error kind prescribed by the specification, which the
code never constructs. -/
inductive PyError where
  | zeroDivisionError : PyError
  | valueError : PyError
  | invalidParameter : PyError
  deriving DecidableEq

/-- Shallow embedding of `simulate_stock_data` from `src/simulation.py`.
The function calls `np.random.seed()` with no argument, which re-seeds the
global generator from fresh OS entropy; the standard normal draws consumed
afterwards form the stream `fresh` determined by that entropy.  The `seed`
parameter of the Python function is never read.  `dt = 1 / trading_days`
raises `ZeroDivisionError` when `trading_days = 0`, and
`np.random.normal(..., size=n)` raises `ValueError` when `n < 0`. -/
def simulate_stock_data (fresh : ℕ → ℝ) (s0 mu sigma : ℝ) (trading_years trading_days : ℤ)
    (seed : ℤ) : Except PyError (List ℝ) :=
  if trading_days = 0 then .error .zeroDivisionError
  else
    let dt : ℝ := 1 / (trading_days : ℝ)
    let n : ℤ := trading_years * trading_days
    if n < 0 then .error .valueError
    else
      let returns : ℕ → ℝ := fun i =>
        (mu - 0.5 * sigma ^ 2) * dt + sigma * Real.sqrt dt * fresh i
      .ok ((List.range n.toNat).map fun i =>
        Real.exp (Real.log s0 + ∑ j ∈ Finset.range (i + 1), returns j))

/-- One iteration of the loop in `simulate_gbm`:
`prices.append(prices[-1] * np.exp(shock))` with the `i`-th draw. -/
def gbmStep (shock : ℕ → ℝ) (prices : List ℝ) (i : ℕ) : List ℝ :=
  prices ++ [prices.getLast! * Real.exp (shock i)]

/-- Shallow embedding of `simulate_gbm` from `src/simulation2.py`.
`ofSeed s` is the standard normal stream of the global generator right after
`np.random.seed(s)`; `fresh` is the stream produced from whatever generator
state the process otherwise has.  `dt = T / steps` raises
`ZeroDivisionError` when `steps = 0`; for negative `steps` the loop
`for _ in range(steps)` runs zero times. -/
def simulate_gbm (ofSeed : ℤ → ℕ → ℝ) (fresh : ℕ → ℝ) (s0 mu sigma T : ℝ) (steps : ℤ)
    (seed : Option ℤ) : Except PyError (List ℝ) :=
  let z : ℕ → ℝ := match seed with
    | some s => ofSeed s
    | none => fresh
  if steps = 0 then .error .zeroDivisionError
  else
    let dt : ℝ := T / (steps : ℝ)
    let shock : ℕ → ℝ := fun i => (mu - 0.5 * sigma ^ 2) * dt + sigma * Real.sqrt dt * z i
    .ok ((List.range steps.toNat).foldl (gbmStep shock) [s0])

/-! ### Basic facts about the standard normal density and CDF -/

lemma sqrt_two_pi_pos : 0 < Real.sqrt (2 * Real.pi) :=
  Real.sqrt_pos.2 (by positivity)

lemma stdNormPdf_pos (t : ℝ) : 0 < stdNormPdf t :=
  div_pos (Real.exp_pos _) sqrt_two_pi_pos

lemma stdNormPdf_fun_eq :
    stdNormPdf = fun t => Real.exp (-(1 / 2) * t ^ 2) / Real.sqrt (2 * Real.pi) :=
  funext fun t => by rw [stdNormPdf, show -(t ^ 2) / 2 = -(1 / 2) * t ^ 2 by ring]

lemma continuous_stdNormPdf : Continuous stdNormPdf := by
  rw [stdNormPdf_fun_eq]
  exact (Real.continuous_exp.comp (by continuity)).div_const _

lemma integrable_stdNormPdf : Integrable stdNormPdf := by
  rw [stdNormPdf_fun_eq]
  exact (integrable_exp_neg_mul_sq (by norm_num)).div_const _

lemma integral_stdNormPdf : ∫ t, stdNormPdf t = 1 := by
  rw [stdNormPdf_fun_eq]
  rw [MeasureTheory.integral_div, integral_gaussian,
    show Real.pi / (1 / 2) = 2 * Real.pi by ring]
  exact div_self sqrt_two_pi_pos.ne'

lemma stdNormCdf_nonneg (x : ℝ) : 0 ≤ stdNormCdf x :=
  setIntegral_nonneg measurableSet_Iic fun t _ => (stdNormPdf_pos t).le

lemma stdNormCdf_le_one (x : ℝ) : stdNormCdf x ≤ 1 := by
  have h := setIntegral_le_integral (s := Iic x) integrable_stdNormPdf
    (Filter.Eventually.of_forall fun t => (stdNormPdf_pos t).le)
  rwa [integral_stdNormPdf] at h

lemma stdNormCdf_sub (a b : ℝ) :
    stdNormCdf b - stdNormCdf a = ∫ t in a..b, stdNormPdf t :=
  intervalIntegral.integral_Iic_sub_Iic integrable_stdNormPdf.integrableOn
    integrable_stdNormPdf.integrableOn

lemma stdNormCdf_mono : Monotone stdNormCdf := by
  intro a b hab
  have h := stdNormCdf_sub a b
  have h2 : 0 ≤ ∫ t in a..b, stdNormPdf t :=
    intervalIntegral.integral_nonneg hab fun t _ => (stdNormPdf_pos t).le
  linarith

lemma hasDerivAt_stdNormCdf (x : ℝ) : HasDerivAt stdNormCdf (stdNormPdf x) x := by
  have h : HasDerivAt (fun u => stdNormCdf 0 + ∫ t in (0:ℝ)..u, stdNormPdf t)
      (stdNormPdf x) x :=
    ((continuous_stdNormPdf.integral_hasStrictDerivAt 0 x).hasDerivAt).const_add _
  have he : (fun u => stdNormCdf 0 + ∫ t in (0:ℝ)..u, stdNormPdf t) = stdNormCdf :=
    funext fun u => by have := stdNormCdf_sub 0 u; linarith
  rwa [he] at h

lemma continuous_stdNormCdf : Continuous stdNormCdf :=
  continuous_iff_continuousAt.2 fun x => (hasDerivAt_stdNormCdf x).continuousAt

lemma stdNormCdf_neg (x : ℝ) : stdNormCdf (-x) = 1 - stdNormCdf x := by
  have heven : stdNormPdf = fun t => stdNormPdf (-t) :=
    funext fun t => by rw [stdNormPdf, stdNormPdf, neg_sq]
  have h1 : stdNormCdf (-x) = ∫ t in Ioi x, stdNormPdf t := by
    rw [stdNormCdf]
    nth_rewrite 1 [heven]
    rw [integral_comp_neg_Iic, neg_neg]
  have h2 : (∫ t in Iic x, stdNormPdf t) + ∫ t in Ioi x, stdNormPdf t = 1 := by
    rw [intervalIntegral.integral_Iic_add_Ioi integrable_stdNormPdf.integrableOn
      integrable_stdNormPdf.integrableOn, integral_stdNormPdf]
  rw [h1]
  have : stdNormCdf x = ∫ t in Iic x, stdNormPdf t := rfl
  linarith

lemma stdNormCdf_zero : stdNormCdf 0 = 1 / 2 := by
  have h := stdNormCdf_neg 0
  rw [neg_zero] at h
  linarith

lemma tendsto_stdNormCdf_atTop : Tendsto stdNormCdf atTop (𝓝 1) := by
  have h := tendsto_setIntegral_of_monotone (μ := (volume : Measure ℝ))
    (s := fun x : ℝ => Iic x) (f := stdNormPdf)
    (fun i => measurableSet_Iic) (fun a b hab => Iic_subset_Iic.2 hab) ?_
  · have hu : (⋃ x : ℝ, Iic x) = univ := iUnion_Iic
    rw [hu] at h
    simpa [stdNormCdf, setIntegral_univ, integral_stdNormPdf] using h
  · rw [iUnion_Iic]
    exact integrable_stdNormPdf.integrableOn

lemma tendsto_stdNormCdf_atBot : Tendsto stdNormCdf atBot (𝓝 0) := by
  have he : stdNormCdf = fun x => 1 - stdNormCdf (-x) := funext fun x => by
    have h := stdNormCdf_neg (-x)
    rw [neg_neg] at h
    linarith
  rw [he]
  have hn : Tendsto (fun x : ℝ => -x) atBot atTop := tendsto_neg_atBot_atTop
  have h1 := (tendsto_stdNormCdf_atTop.comp hn).const_sub 1
  simpa using h1

/-! ### The core Black-Scholes inequality

For `s > 0` the map `m ↦ exp m * Φ (m/s + s/2) - Φ (m/s - s/2)` has nonnegative
derivative `exp m * Φ (m/s + s/2)` and tends to `0` at `-∞`, hence is nonnegative
everywhere.  Instantiated with `s = σ√T` and `m` the log-moneyness of the forward,
it yields nonnegativity of the Black-Scholes call price and the lower bound by
the discounted intrinsic value. -/

lemma exp_mul_stdNormPdf (s m : ℝ) (hs : s ≠ 0) :
    Real.exp m * stdNormPdf (m / s + s / 2) = stdNormPdf (m / s - s / 2) := by
  rw [stdNormPdf, stdNormPdf, ← mul_div_assoc, ← Real.exp_add]
  congr 1
  field_simp
  ring

lemma key_g_hasDerivAt (s : ℝ) (hs : s ≠ 0) (m : ℝ) :
    HasDerivAt (fun m => Real.exp m * stdNormCdf (m / s + s / 2) - stdNormCdf (m / s - s / 2))
      (Real.exp m * stdNormCdf (m / s + s / 2)) m := by
  have hlin1 : HasDerivAt (fun m : ℝ => m / s + s / 2) (1 / s) m := by
    simpa using ((hasDerivAt_id m).div_const s).add_const (s / 2)
  have hlin2 : HasDerivAt (fun m : ℝ => m / s - s / 2) (1 / s) m := by
    simpa using ((hasDerivAt_id m).div_const s).sub_const (s / 2)
  have h1 : HasDerivAt (fun m : ℝ => stdNormCdf (m / s + s / 2))
      (stdNormPdf (m / s + s / 2) * (1 / s)) m :=
    (hasDerivAt_stdNormCdf _).comp m hlin1
  have h2 : HasDerivAt (fun m : ℝ => stdNormCdf (m / s - s / 2))
      (stdNormPdf (m / s - s / 2) * (1 / s)) m :=
    (hasDerivAt_stdNormCdf _).comp m hlin2
  have h3 := ((Real.hasDerivAt_exp m).mul h1).sub h2
  convert h3 using 1
  rw [← exp_mul_stdNormPdf s m hs]
  ring

lemma key_g_mono (s : ℝ) (hs : s ≠ 0) :
    Monotone (fun m => Real.exp m * stdNormCdf (m / s + s / 2) - stdNormCdf (m / s - s / 2)) := by
  apply monotone_of_deriv_nonneg
  · exact fun m => (key_g_hasDerivAt s hs m).differentiableAt
  · intro m
    rw [(key_g_hasDerivAt s hs m).deriv]
    exact mul_nonneg (Real.exp_pos m).le (stdNormCdf_nonneg _)

lemma key_g_tendsto (s : ℝ) (hs : 0 < s) :
    Tendsto (fun m => Real.exp m * stdNormCdf (m / s + s / 2) - stdNormCdf (m / s - s / 2))
      atBot (𝓝 0) := by
  have h1 : Tendsto (fun m : ℝ => Real.exp m * stdNormCdf (m / s + s / 2)) atBot (𝓝 0) := by
    refine squeeze_zero (fun m => mul_nonneg (Real.exp_pos m).le (stdNormCdf_nonneg _))
      (fun m => ?_) Real.tendsto_exp_atBot
    calc Real.exp m * stdNormCdf (m / s + s / 2) ≤ Real.exp m * 1 :=
          mul_le_mul_of_nonneg_left (stdNormCdf_le_one _) (Real.exp_pos m).le
      _ = Real.exp m := mul_one _
  have hinner : Tendsto (fun m : ℝ => m / s - s / 2) atBot atBot := by
    have h3 := (tendsto_id (α := ℝ)).atBot_div_const hs
    exact (tendsto_atBot_add_const_right _ (-(s / 2)) h3).congr fun m => by
      simp only [id_eq]
      ring
  have h2 : Tendsto (fun m : ℝ => stdNormCdf (m / s - s / 2)) atBot (𝓝 0) :=
    tendsto_stdNormCdf_atBot.comp hinner
  simpa using h1.sub h2

lemma stdNormCdf_key_ineq (s m : ℝ) (hs : 0 < s) :
    stdNormCdf (m / s - s / 2) ≤ Real.exp m * stdNormCdf (m / s + s / 2) := by
  have h0 : 0 ≤ Real.exp m * stdNormCdf (m / s + s / 2) - stdNormCdf (m / s - s / 2) := by
    refine le_of_tendsto (key_g_tendsto s hs) ?_
    filter_upwards [eventually_le_atBot m] with x hx
    exact key_g_mono s hs.ne' hx
  linarith

/-! ### Bounds on the Black-Scholes terms -/

lemma bs_d_split (LK c sigma u : ℝ) (hu : u ≠ 0) (hsig : sigma ≠ 0) :
    (LK + (c + 0.5 * sigma ^ 2) * u ^ 2) / (sigma * u)
      = (LK + c * u ^ 2) / (sigma * u) + sigma * u / 2 := by
  field_simp
  ring

lemma bs_call_terms_le (S K T r q sigma : ℝ) (hS : 0 < S) (hK : 0 < K) (hT : 0 < T)
    (hsig : 0 < sigma) :
    K * Real.exp (-r * T) *
        stdNormCdf ((Real.log (S / K) + (r - q + 0.5 * sigma ^ 2) * T) / (sigma * Real.sqrt T)
          - sigma * Real.sqrt T)
      ≤ S * Real.exp (-q * T) *
        stdNormCdf ((Real.log (S / K) + (r - q + 0.5 * sigma ^ 2) * T) /
          (sigma * Real.sqrt T)) := by
  set s := sigma * Real.sqrt T with hsdef
  have hspos : 0 < s := mul_pos hsig (Real.sqrt_pos.2 hT)
  set m := Real.log S - Real.log K + (r - q) * T with hmdef
  have hd1 : (Real.log (S / K) + (r - q + 0.5 * sigma ^ 2) * T) / s = m / s + s / 2 := by
    have hsplit := bs_d_split (Real.log (S / K)) (r - q) sigma (Real.sqrt T)
      (Real.sqrt_pos.2 hT).ne' hsig.ne'
    rw [Real.sq_sqrt hT.le] at hsplit
    rw [hsdef, hmdef, hsplit, Real.log_div hS.ne' hK.ne']
  have hd2 : (Real.log (S / K) + (r - q + 0.5 * sigma ^ 2) * T) / s - s = m / s - s / 2 := by
    rw [hd1]; ring
  rw [hd2, hd1]
  have hkey := stdNormCdf_key_ineq s m hspos
  have hBe : K * Real.exp (-r * T) * Real.exp m = S * Real.exp (-q * T) := by
    rw [hmdef, Real.exp_add, Real.exp_sub, Real.exp_log hS, Real.exp_log hK,
      show -q * T = -r * T + (r - q) * T by ring, Real.exp_add]
    field_simp
    ring
  calc K * Real.exp (-r * T) * stdNormCdf (m / s - s / 2)
      ≤ K * Real.exp (-r * T) * (Real.exp m * stdNormCdf (m / s + s / 2)) := by
        apply mul_le_mul_of_nonneg_left hkey (by positivity)
    _ = K * Real.exp (-r * T) * Real.exp m * stdNormCdf (m / s + s / 2) := by ring
    _ = S * Real.exp (-q * T) * stdNormCdf (m / s + s / 2) := by rw [hBe]

lemma bs_call_terms_ge (S K T r q sigma : ℝ) (hS : 0 < S) (hK : 0 < K) (hT : 0 < T)
    (hsig : 0 < sigma) :
    S * Real.exp (-q * T) *
        (1 - stdNormCdf ((Real.log (S / K) + (r - q + 0.5 * sigma ^ 2) * T) /
          (sigma * Real.sqrt T)))
      ≤ K * Real.exp (-r * T) *
        (1 - stdNormCdf ((Real.log (S / K) + (r - q + 0.5 * sigma ^ 2) * T) /
          (sigma * Real.sqrt T) - sigma * Real.sqrt T)) := by
  set s := sigma * Real.sqrt T with hsdef
  have hspos : 0 < s := mul_pos hsig (Real.sqrt_pos.2 hT)
  set m := Real.log S - Real.log K + (r - q) * T with hmdef
  have hd1 : (Real.log (S / K) + (r - q + 0.5 * sigma ^ 2) * T) / s = m / s + s / 2 := by
    have hsplit := bs_d_split (Real.log (S / K)) (r - q) sigma (Real.sqrt T)
      (Real.sqrt_pos.2 hT).ne' hsig.ne'
    rw [Real.sq_sqrt hT.le] at hsplit
    rw [hsdef, hmdef, hsplit, Real.log_div hS.ne' hK.ne']
  have hd2 : (Real.log (S / K) + (r - q + 0.5 * sigma ^ 2) * T) / s - s = m / s - s / 2 := by
    rw [hd1]; ring
  rw [hd2, hd1]
  have hkey := stdNormCdf_key_ineq s (-m) hspos
  have hn1 : -m / s - s / 2 = -(m / s + s / 2) := by ring
  have hn2 : -m / s + s / 2 = -(m / s - s / 2) := by ring
  rw [hn1, hn2, stdNormCdf_neg, stdNormCdf_neg] at hkey
  have hBe : S * Real.exp (-q * T) * Real.exp (-m) = K * Real.exp (-r * T) := by
    rw [hmdef,
      show -(Real.log S - Real.log K + (r - q) * T)
        = Real.log K - Real.log S + -((r - q) * T) by ring,
      Real.exp_add, Real.exp_sub, Real.exp_log hK, Real.exp_log hS,
      show -r * T = -q * T + -((r - q) * T) by ring, Real.exp_add]
    field_simp
    ring
  calc S * Real.exp (-q * T) * (1 - stdNormCdf (m / s + s / 2))
      ≤ S * Real.exp (-q * T) * (Real.exp (-m) * (1 - stdNormCdf (m / s - s / 2))) := by
        apply mul_le_mul_of_nonneg_left hkey (by positivity)
    _ = S * Real.exp (-q * T) * Real.exp (-m) * (1 - stdNormCdf (m / s - s / 2)) := by ring
    _ = K * Real.exp (-r * T) * (1 - stdNormCdf (m / s - s / 2)) := by rw [hBe]

lemma bsp_pos_T (S K T r sigma q : ℝ) (hT : 0 < T) :
    black_scholes_call_price S K T r sigma q =
      S * Real.exp (-q * T) *
        stdNormCdf ((Real.log (S / K) + (r - q + 0.5 * sigma ^ 2) * T) / (sigma * Real.sqrt T))
      - K * Real.exp (-r * T) *
        stdNormCdf ((Real.log (S / K) + (r - q + 0.5 * sigma ^ 2) * T) / (sigma * Real.sqrt T)
          - sigma * Real.sqrt T) := by
  simp only [black_scholes_call_price]
  rw [if_neg (not_le.2 hT)]

lemma bsc_pos_T (S K T r sigma : ℝ) (hT : 0 < T) :
    black_scholes_call S K T r sigma =
      S * stdNormCdf ((Real.log (S / K) + (r + 0.5 * sigma ^ 2) * T) / (sigma * Real.sqrt T))
      - K * Real.exp (-r * T) *
        stdNormCdf ((Real.log (S / K) + (r + 0.5 * sigma ^ 2) * T) / (sigma * Real.sqrt T)
          - sigma * Real.sqrt T) := by
  simp only [black_scholes_call]
  rw [if_neg (not_le.2 hT)]

lemma bsp_eq_bsc (S K T r sigma : ℝ) :
    black_scholes_call_price S K T r sigma 0 = black_scholes_call S K T r sigma := by
  by_cases hT : T ≤ 0
  · simp only [black_scholes_call_price, black_scholes_call, if_pos hT]
  · push_neg at hT
    rw [bsp_pos_T _ _ _ _ _ _ hT, bsc_pos_T _ _ _ _ _ hT]
    norm_num

lemma bs_pdf_identity (S K T r q sigma : ℝ) (hS : 0 < S) (hK : 0 < K) (hT : 0 < T)
    (hsig : sigma ≠ 0) :
    S * Real.exp (-q * T) *
        stdNormPdf ((Real.log (S / K) + (r - q + 0.5 * sigma ^ 2) * T) / (sigma * Real.sqrt T))
      = K * Real.exp (-r * T) *
        stdNormPdf ((Real.log (S / K) + (r - q + 0.5 * sigma ^ 2) * T) / (sigma * Real.sqrt T)
          - sigma * Real.sqrt T) := by
  have hsigpos : sigma ≠ 0 := hsig
  set s := sigma * Real.sqrt T with hsdef
  have hspos : 0 < s ∨ s < 0 := by
    rcases lt_or_gt_of_ne (mul_ne_zero hsig (Real.sqrt_pos.2 hT).ne' : s ≠ 0) with h | h
    · exact Or.inr h
    · exact Or.inl h
  set m := Real.log S - Real.log K + (r - q) * T with hmdef
  have hsne : s ≠ 0 := mul_ne_zero hsig (Real.sqrt_pos.2 hT).ne'
  have hd1 : (Real.log (S / K) + (r - q + 0.5 * sigma ^ 2) * T) / s = m / s + s / 2 := by
    have hsplit := bs_d_split (Real.log (S / K)) (r - q) sigma (Real.sqrt T)
      (Real.sqrt_pos.2 hT).ne' hsig
    rw [Real.sq_sqrt hT.le] at hsplit
    rw [hsdef, hmdef, hsplit, Real.log_div hS.ne' hK.ne']
  have hd2 : (Real.log (S / K) + (r - q + 0.5 * sigma ^ 2) * T) / s - s = m / s - s / 2 := by
    rw [hd1]; ring
  rw [hd2, hd1]
  have hpdf := exp_mul_stdNormPdf s m hsne
  have hBe : K * Real.exp (-r * T) * Real.exp m = S * Real.exp (-q * T) := by
    rw [hmdef, Real.exp_add, Real.exp_sub, Real.exp_log hS, Real.exp_log hK,
      show -q * T = -r * T + (r - q) * T by ring, Real.exp_add]
    field_simp
    ring
  calc S * Real.exp (-q * T) * stdNormPdf (m / s + s / 2)
      = K * Real.exp (-r * T) * Real.exp m * stdNormPdf (m / s + s / 2) := by rw [hBe]
    _ = K * Real.exp (-r * T) * (Real.exp m * stdNormPdf (m / s + s / 2)) := by ring
    _ = K * Real.exp (-r * T) * stdNormPdf (m / s - s / 2) := by rw [hpdf]

/-! ### Price bounds (0 ≤ price ≤ spot) -/

lemma bsp_nonneg (S K T r sigma q : ℝ) (hS : 0 < S) (hK : 0 < K) (hT0 : 0 ≤ T)
    (hsig : 0 < T → 0 < sigma) : 0 ≤ black_scholes_call_price S K T r sigma q := by
  rcases eq_or_lt_of_le hT0 with hT | hT
  · simp only [black_scholes_call_price, if_pos (le_of_eq hT.symm)]
    exact le_max_right _ _
  · rw [bsp_pos_T _ _ _ _ _ _ hT]
    have h := bs_call_terms_le S K T r q sigma hS hK hT (hsig hT)
    linarith

lemma bsp_le_spot (S K T r sigma q : ℝ) (hS : 0 < S) (hK : 0 < K) (hT0 : 0 ≤ T)
    (hq : 0 ≤ q) : black_scholes_call_price S K T r sigma q ≤ S := by
  by_cases hT : T ≤ 0
  · simp only [black_scholes_call_price, if_pos hT]
    apply max_le _ hS.le
    linarith
  · push_neg at hT
    rw [bsp_pos_T _ _ _ _ _ _ hT]
    have h1 : stdNormCdf ((Real.log (S / K) + (r - q + 0.5 * sigma ^ 2) * T) /
        (sigma * Real.sqrt T)) ≤ 1 := stdNormCdf_le_one _
    have h2 : 0 ≤ K * Real.exp (-r * T) *
        stdNormCdf ((Real.log (S / K) + (r - q + 0.5 * sigma ^ 2) * T) / (sigma * Real.sqrt T)
          - sigma * Real.sqrt T) := by
      have := stdNormCdf_nonneg ((Real.log (S / K) + (r - q + 0.5 * sigma ^ 2) * T) /
        (sigma * Real.sqrt T) - sigma * Real.sqrt T)
      positivity
    have h3 : Real.exp (-q * T) ≤ 1 := by
      rw [← Real.exp_zero]
      apply Real.exp_le_exp.2
      rw [neg_mul]
      exact neg_nonpos.2 (mul_nonneg hq hT0)
    have hA : S * Real.exp (-q * T) *
        stdNormCdf ((Real.log (S / K) + (r - q + 0.5 * sigma ^ 2) * T) / (sigma * Real.sqrt T))
          ≤ S * Real.exp (-q * T) := by
      calc S * Real.exp (-q * T) *
          stdNormCdf ((Real.log (S / K) + (r - q + 0.5 * sigma ^ 2) * T) / (sigma * Real.sqrt T))
            ≤ S * Real.exp (-q * T) * 1 := mul_le_mul_of_nonneg_left h1 (by positivity)
        _ = S * Real.exp (-q * T) := mul_one _
    have hB : S * Real.exp (-q * T) ≤ S := by
      calc S * Real.exp (-q * T) ≤ S * 1 := mul_le_mul_of_nonneg_left h3 hS.le
        _ = S := mul_one _
    linarith

/-! ### Monotonicity of the call price in the volatility -/

lemma bs_sigma_deriv_aux (S K T r q v A : ℝ) (hS : 0 < S) (hK : 0 < K) (hT : 0 < T)
    (hv : 0 < v)
    (hd1 : HasDerivAt (fun w : ℝ =>
      (Real.log (S / K) + (r - q + 0.5 * w ^ 2) * T) / (w * Real.sqrt T)) A v) :
    HasDerivAt (fun w => S * Real.exp (-q * T) *
        stdNormCdf ((Real.log (S / K) + (r - q + 0.5 * w ^ 2) * T) / (w * Real.sqrt T))
      - K * Real.exp (-r * T) *
        stdNormCdf ((Real.log (S / K) + (r - q + 0.5 * w ^ 2) * T) / (w * Real.sqrt T)
          - w * Real.sqrt T))
      (S * Real.exp (-q * T) *
        stdNormPdf ((Real.log (S / K) + (r - q + 0.5 * v ^ 2) * T) / (v * Real.sqrt T))
        * Real.sqrt T) v := by
  have hD : HasDerivAt (fun w : ℝ => w * Real.sqrt T) (Real.sqrt T) v := by
    simpa using (hasDerivAt_id v).mul_const (Real.sqrt T)
  have hd2 : HasDerivAt (fun w : ℝ =>
      (Real.log (S / K) + (r - q + 0.5 * w ^ 2) * T) / (w * Real.sqrt T) - w * Real.sqrt T)
      (A - Real.sqrt T) v := hd1.sub hD
  have hp1 : HasDerivAt (fun w : ℝ => stdNormCdf
      ((Real.log (S / K) + (r - q + 0.5 * w ^ 2) * T) / (w * Real.sqrt T)))
      (stdNormPdf ((Real.log (S / K) + (r - q + 0.5 * v ^ 2) * T) / (v * Real.sqrt T)) * A)
      v := (hasDerivAt_stdNormCdf _).comp v hd1
  have hp2 : HasDerivAt (fun w : ℝ => stdNormCdf
      ((Real.log (S / K) + (r - q + 0.5 * w ^ 2) * T) / (w * Real.sqrt T) - w * Real.sqrt T))
      (stdNormPdf ((Real.log (S / K) + (r - q + 0.5 * v ^ 2) * T) / (v * Real.sqrt T)
        - v * Real.sqrt T) * (A - Real.sqrt T)) v :=
    (hasDerivAt_stdNormCdf _).comp v hd2
  have hF := (hp1.const_mul (S * Real.exp (-q * T))).sub
    (hp2.const_mul (K * Real.exp (-r * T)))
  convert hF using 1
  have hid := bs_pdf_identity S K T r q v hS hK hT hv.ne'
  linear_combination (Real.sqrt T - A) * hid

lemma bsp_sigma_diff (S K T r q : ℝ) (hT : 0 < T) (v : ℝ) (hv : 0 < v) :
    ∃ A : ℝ, HasDerivAt (fun w : ℝ =>
      (Real.log (S / K) + (r - q + 0.5 * w ^ 2) * T) / (w * Real.sqrt T)) A v := by
  have hsqT : 0 < Real.sqrt T := Real.sqrt_pos.2 hT
  have h2 : HasDerivAt (fun w : ℝ => w ^ 2) (2 * v) v := by simpa using hasDerivAt_pow 2 v
  have hN : HasDerivAt (fun w : ℝ => Real.log (S / K) + (r - q + 0.5 * w ^ 2) * T)
      (0.5 * (2 * v) * T) v :=
    (((h2.const_mul 0.5).const_add (r - q)).mul_const T).const_add (Real.log (S / K))
  have hD : HasDerivAt (fun w : ℝ => w * Real.sqrt T) (Real.sqrt T) v := by
    simpa using (hasDerivAt_id v).mul_const (Real.sqrt T)
  exact ⟨_, hN.div hD (mul_pos hv hsqT).ne'⟩

lemma bsp_mono_sigma (S K T r q : ℝ) (hS : 0 < S) (hK : 0 < K)
    (s1 s2 : ℝ) (h1 : 0 < s1) (h12 : s1 ≤ s2) :
    black_scholes_call_price S K T r s1 q ≤ black_scholes_call_price S K T r s2 q := by
  by_cases hT : T ≤ 0
  · simp only [black_scholes_call_price, if_pos hT]
    exact le_refl _
  · push_neg at hT
    have hder : ∀ v ∈ Ioi (0:ℝ), HasDerivAt (fun w => S * Real.exp (-q * T) *
        stdNormCdf ((Real.log (S / K) + (r - q + 0.5 * w ^ 2) * T) / (w * Real.sqrt T))
      - K * Real.exp (-r * T) *
        stdNormCdf ((Real.log (S / K) + (r - q + 0.5 * w ^ 2) * T) / (w * Real.sqrt T)
          - w * Real.sqrt T))
      (S * Real.exp (-q * T) *
        stdNormPdf ((Real.log (S / K) + (r - q + 0.5 * v ^ 2) * T) / (v * Real.sqrt T))
        * Real.sqrt T) v := by
      intro v hv
      obtain ⟨A, hA⟩ := bsp_sigma_diff S K T r q hT v hv
      exact bs_sigma_deriv_aux S K T r q v A hS hK hT hv hA
    have hkey : MonotoneOn (fun w => S * Real.exp (-q * T) *
        stdNormCdf ((Real.log (S / K) + (r - q + 0.5 * w ^ 2) * T) / (w * Real.sqrt T))
      - K * Real.exp (-r * T) *
        stdNormCdf ((Real.log (S / K) + (r - q + 0.5 * w ^ 2) * T) / (w * Real.sqrt T)
          - w * Real.sqrt T)) (Ioi (0:ℝ)) := by
      apply monotoneOn_of_deriv_nonneg (convex_Ioi 0)
      · exact fun v hv => (hder v hv).continuousAt.continuousWithinAt
      · intro v hv
        rw [interior_Ioi] at hv
        exact (hder v hv).differentiableAt.differentiableWithinAt
      · intro v hv
        rw [interior_Ioi] at hv
        rw [(hder v hv).deriv]
        exact mul_nonneg (mul_nonneg (mul_nonneg hS.le (Real.exp_pos _).le)
          (stdNormPdf_pos _).le) (Real.sqrt_nonneg T)
    have h2pos : 0 < s2 := lt_of_lt_of_le h1 h12
    have hfin := hkey (mem_Ioi.2 h1) (mem_Ioi.2 h2pos) h12
    rw [bsp_pos_T S K T r s1 q hT, bsp_pos_T S K T r s2 q hT]
    exact hfin

/-! ### The dividend-free pricer: transported bounds and monotonicity in maturity -/

lemma bs2_terms_le (S K T r sigma : ℝ) (hS : 0 < S) (hK : 0 < K) (hT : 0 < T)
    (hsig : 0 < sigma) :
    K * Real.exp (-r * T) *
        stdNormCdf ((Real.log (S / K) + (r + 0.5 * sigma ^ 2) * T) / (sigma * Real.sqrt T)
          - sigma * Real.sqrt T)
      ≤ S * stdNormCdf ((Real.log (S / K) + (r + 0.5 * sigma ^ 2) * T) /
          (sigma * Real.sqrt T)) := by
  have h := bs_call_terms_le S K T r 0 sigma hS hK hT hsig
  simpa using h

lemma bs2_terms_ge (S K T r sigma : ℝ) (hS : 0 < S) (hK : 0 < K) (hT : 0 < T)
    (hsig : 0 < sigma) :
    S * (1 - stdNormCdf ((Real.log (S / K) + (r + 0.5 * sigma ^ 2) * T) /
          (sigma * Real.sqrt T)))
      ≤ K * Real.exp (-r * T) *
        (1 - stdNormCdf ((Real.log (S / K) + (r + 0.5 * sigma ^ 2) * T) / (sigma * Real.sqrt T)
          - sigma * Real.sqrt T)) := by
  have h := bs_call_terms_ge S K T r 0 sigma hS hK hT hsig
  simpa using h

lemma bs2_pdf_identity (S K T r sigma : ℝ) (hS : 0 < S) (hK : 0 < K) (hT : 0 < T)
    (hsig : sigma ≠ 0) :
    S * stdNormPdf ((Real.log (S / K) + (r + 0.5 * sigma ^ 2) * T) / (sigma * Real.sqrt T))
      = K * Real.exp (-r * T) *
        stdNormPdf ((Real.log (S / K) + (r + 0.5 * sigma ^ 2) * T) / (sigma * Real.sqrt T)
          - sigma * Real.sqrt T) := by
  have h := bs_pdf_identity S K T r 0 sigma hS hK hT hsig
  simpa using h

lemma bs_T_deriv_aux (S K r sigma t A : ℝ) (hS : 0 < S) (hK : 0 < K) (ht : 0 < t)
    (hsig : 0 < sigma)
    (hd1 : HasDerivAt (fun u : ℝ =>
      (Real.log (S / K) + (r + 0.5 * sigma ^ 2) * u) / (sigma * Real.sqrt u)) A t) :
    HasDerivAt (fun u => S *
        stdNormCdf ((Real.log (S / K) + (r + 0.5 * sigma ^ 2) * u) / (sigma * Real.sqrt u))
      - K * Real.exp (-r * u) *
        stdNormCdf ((Real.log (S / K) + (r + 0.5 * sigma ^ 2) * u) / (sigma * Real.sqrt u)
          - sigma * Real.sqrt u))
      (S * stdNormPdf ((Real.log (S / K) + (r + 0.5 * sigma ^ 2) * t) / (sigma * Real.sqrt t))
          * (sigma * (1 / (2 * Real.sqrt t)))
        + r * (K * Real.exp (-r * t) *
          stdNormCdf ((Real.log (S / K) + (r + 0.5 * sigma ^ 2) * t) / (sigma * Real.sqrt t)
            - sigma * Real.sqrt t))) t := by
  have hsq : HasDerivAt Real.sqrt (1 / (2 * Real.sqrt t)) t := Real.hasDerivAt_sqrt ht.ne'
  have hD : HasDerivAt (fun u : ℝ => sigma * Real.sqrt u)
      (sigma * (1 / (2 * Real.sqrt t))) t := hsq.const_mul sigma
  have hd2 : HasDerivAt (fun u : ℝ =>
      (Real.log (S / K) + (r + 0.5 * sigma ^ 2) * u) / (sigma * Real.sqrt u)
        - sigma * Real.sqrt u)
      (A - sigma * (1 / (2 * Real.sqrt t))) t := hd1.sub hD
  have hE : HasDerivAt (fun u : ℝ => Real.exp (-r * u)) (Real.exp (-r * t) * -r) t := by
    have hlin : HasDerivAt (fun u : ℝ => -r * u) (-r) t := by
      simpa using (hasDerivAt_id t).const_mul (-r)
    exact hlin.exp
  have hp1 : HasDerivAt (fun u : ℝ => stdNormCdf
      ((Real.log (S / K) + (r + 0.5 * sigma ^ 2) * u) / (sigma * Real.sqrt u)))
      (stdNormPdf ((Real.log (S / K) + (r + 0.5 * sigma ^ 2) * t) / (sigma * Real.sqrt t)) * A)
      t := (hasDerivAt_stdNormCdf _).comp t hd1
  have hp2 : HasDerivAt (fun u : ℝ => stdNormCdf
      ((Real.log (S / K) + (r + 0.5 * sigma ^ 2) * u) / (sigma * Real.sqrt u)
        - sigma * Real.sqrt u))
      (stdNormPdf ((Real.log (S / K) + (r + 0.5 * sigma ^ 2) * t) / (sigma * Real.sqrt t)
        - sigma * Real.sqrt t) * (A - sigma * (1 / (2 * Real.sqrt t)))) t :=
    (hasDerivAt_stdNormCdf _).comp t hd2
  have hF := (hp1.const_mul S).sub ((hE.mul hp2).const_mul K)
  convert hF using 1
  · funext u
    ring
  · have hid := bs2_pdf_identity S K t r sigma hS hK ht hsig.ne'
    linear_combination (sigma * (1 / (2 * Real.sqrt t)) - A) * hid

lemma bs_T_diff (S K r sigma t : ℝ) (ht : 0 < t) (hsig : sigma ≠ 0) :
    ∃ A : ℝ, HasDerivAt (fun u : ℝ =>
      (Real.log (S / K) + (r + 0.5 * sigma ^ 2) * u) / (sigma * Real.sqrt u)) A t := by
  have hsq : HasDerivAt Real.sqrt (1 / (2 * Real.sqrt t)) t := Real.hasDerivAt_sqrt ht.ne'
  have hD : HasDerivAt (fun u : ℝ => sigma * Real.sqrt u)
      (sigma * (1 / (2 * Real.sqrt t))) t := hsq.const_mul sigma
  have hN : HasDerivAt (fun u : ℝ => Real.log (S / K) + (r + 0.5 * sigma ^ 2) * u)
      (r + 0.5 * sigma ^ 2) t := by
    simpa using ((hasDerivAt_id t).const_mul (r + 0.5 * sigma ^ 2)).const_add (Real.log (S / K))
  have hDne : sigma * Real.sqrt t ≠ 0 := mul_ne_zero hsig (Real.sqrt_pos.2 ht).ne'
  exact ⟨_, hN.div hD hDne⟩

lemma bsc_mono_T (S K r sigma : ℝ) (hS : 0 < S) (hK : 0 < K) (hr : 0 ≤ r) (hsig : 0 < sigma)
    (T1 T2 : ℝ) (h12 : T1 ≤ T2) :
    black_scholes_call S K T1 r sigma ≤ black_scholes_call S K T2 r sigma := by
  by_cases hT2 : T2 ≤ 0
  · have hT1 : T1 ≤ 0 := le_trans h12 hT2
    have e1 : black_scholes_call S K T1 r sigma = max (S - K) 0 := by
      simp only [black_scholes_call, if_pos hT1]
    have e2 : black_scholes_call S K T2 r sigma = max (S - K) 0 := by
      simp only [black_scholes_call, if_pos hT2]
    rw [e1, e2]
  · push_neg at hT2
    by_cases hT1 : T1 ≤ 0
    · have e1 : black_scholes_call S K T1 r sigma = max (S - K) 0 := by
        simp only [black_scholes_call, if_pos hT1]
      rw [e1, bsc_pos_T _ _ _ _ _ hT2]
      have hge := bs2_terms_ge S K T2 r sigma hS hK hT2 hsig
      have hle := bs2_terms_le S K T2 r sigma hS hK hT2 hsig
      have hexple : Real.exp (-r * T2) ≤ 1 := by
        rw [← Real.exp_zero]
        apply Real.exp_le_exp.2
        rw [neg_mul]
        exact neg_nonpos.2 (mul_nonneg hr hT2.le)
      have hKr : K * Real.exp (-r * T2) ≤ K := by
        calc K * Real.exp (-r * T2) ≤ K * 1 := mul_le_mul_of_nonneg_left hexple hK.le
          _ = K := mul_one _
      apply max_le
      · nlinarith
      · linarith
    · push_neg at hT1
      have hder : ∀ t ∈ Ioi (0:ℝ), HasDerivAt (fun u => S *
          stdNormCdf ((Real.log (S / K) + (r + 0.5 * sigma ^ 2) * u) / (sigma * Real.sqrt u))
        - K * Real.exp (-r * u) *
          stdNormCdf ((Real.log (S / K) + (r + 0.5 * sigma ^ 2) * u) / (sigma * Real.sqrt u)
            - sigma * Real.sqrt u))
        (S * stdNormPdf ((Real.log (S / K) + (r + 0.5 * sigma ^ 2) * t) / (sigma * Real.sqrt t))
            * (sigma * (1 / (2 * Real.sqrt t)))
          + r * (K * Real.exp (-r * t) *
            stdNormCdf ((Real.log (S / K) + (r + 0.5 * sigma ^ 2) * t) / (sigma * Real.sqrt t)
              - sigma * Real.sqrt t))) t := by
        intro t ht
        obtain ⟨A, hA⟩ := bs_T_diff S K r sigma t ht hsig.ne'
        exact bs_T_deriv_aux S K r sigma t A hS hK ht hsig hA
      have hmono : MonotoneOn (fun u => S *
          stdNormCdf ((Real.log (S / K) + (r + 0.5 * sigma ^ 2) * u) / (sigma * Real.sqrt u))
        - K * Real.exp (-r * u) *
          stdNormCdf ((Real.log (S / K) + (r + 0.5 * sigma ^ 2) * u) / (sigma * Real.sqrt u)
            - sigma * Real.sqrt u)) (Ioi (0:ℝ)) := by
        apply monotoneOn_of_deriv_nonneg (convex_Ioi 0)
        · exact fun t ht => (hder t ht).continuousAt.continuousWithinAt
        · intro t ht
          rw [interior_Ioi] at ht
          exact (hder t ht).differentiableAt.differentiableWithinAt
        · intro t ht
          rw [interior_Ioi] at ht
          rw [(hder t ht).deriv]
          have h1 : 0 ≤ S * stdNormPdf ((Real.log (S / K) + (r + 0.5 * sigma ^ 2) * t) /
              (sigma * Real.sqrt t)) * (sigma * (1 / (2 * Real.sqrt t))) := by
            apply mul_nonneg (mul_nonneg hS.le (stdNormPdf_pos _).le)
            have := Real.sqrt_pos.2 (mem_Ioi.1 ht)
            positivity
          have h2 : 0 ≤ r * (K * Real.exp (-r * t) *
              stdNormCdf ((Real.log (S / K) + (r + 0.5 * sigma ^ 2) * t) /
                (sigma * Real.sqrt t) - sigma * Real.sqrt t)) := by
            apply mul_nonneg hr
            apply mul_nonneg (mul_nonneg hK.le (Real.exp_pos _).le) (stdNormCdf_nonneg _)
          linarith
      rw [bsc_pos_T _ _ _ _ _ hT1, bsc_pos_T _ _ _ _ _ hT2]
      exact hmono (mem_Ioi.2 hT1) (mem_Ioi.2 (lt_of_lt_of_le hT1 h12)) h12

/-! ### Path lemmas for the simulators -/

lemma getLast!_append_singleton (l : List ℝ) (a : ℝ) : (l ++ [a]).getLast! = a :=
  List.getLast!_of_getLast? (by simp)

lemma gbm_foldl_eq (shock : ℕ → ℝ) (s0 : ℝ) (n : ℕ) :
    (List.range n).foldl (gbmStep shock) [s0]
      = (List.range (n + 1)).map fun i => s0 * Real.exp (∑ j ∈ Finset.range i, shock j) := by
  induction n with
  | zero =>
    rw [show (1:ℕ) = 0 + 1 from rfl, List.range_succ]
    simp
  | succ n ih =>
    rw [List.range_succ, List.foldl_append, ih]
    simp only [List.foldl_cons, List.foldl_nil, gbmStep]
    have hlast : ((List.range (n + 1)).map fun i =>
        s0 * Real.exp (∑ j ∈ Finset.range i, shock j)).getLast!
          = s0 * Real.exp (∑ j ∈ Finset.range n, shock j) := by
      rw [List.range_succ, List.map_append]
      exact getLast!_append_singleton _ _
    rw [hlast]
    conv_rhs => rw [List.range_succ, List.map_append]
    congr 1
    simp only [List.map_cons, List.map_nil, List.cons.injEq, and_true]
    rw [Finset.sum_range_succ, Real.exp_add]
    ring

lemma simulate_gbm_ok (ofSeed : ℤ → ℕ → ℝ) (fresh : ℕ → ℝ) (s0 mu sigma T : ℝ) (steps : ℤ)
    (seed : Option ℤ) (hsteps : steps ≠ 0) :
    simulate_gbm ofSeed fresh s0 mu sigma T steps seed
      = .ok ((List.range (steps.toNat + 1)).map fun i =>
          s0 * Real.exp (∑ j ∈ Finset.range i,
            ((mu - 0.5 * sigma ^ 2) * (T / (steps : ℝ)) +
              sigma * Real.sqrt (T / (steps : ℝ)) *
                (match seed with | some s => ofSeed s | none => fresh) j))) := by
  simp only [simulate_gbm, if_neg hsteps]
  rw [gbm_foldl_eq]

lemma simulate_stock_data_ok (fresh : ℕ → ℝ) (s0 mu sigma : ℝ) (ty td : ℤ) (seed : ℤ)
    (htd : td ≠ 0) (hn : ¬ ty * td < 0) :
    simulate_stock_data fresh s0 mu sigma ty td seed
      = .ok ((List.range (ty * td).toNat).map fun i =>
          Real.exp (Real.log s0 + ∑ j ∈ Finset.range (i + 1),
            ((mu - 0.5 * sigma ^ 2) * (1 / (td : ℝ)) +
              sigma * Real.sqrt (1 / (td : ℝ)) * fresh j))) := by
  simp only [simulate_stock_data, if_neg htd, if_neg hn]

lemma simulate_gbm_path_props (ofSeed : ℤ → ℕ → ℝ) (fresh : ℕ → ℝ)
    (s0 mu sigma T : ℝ) (steps : ℤ) (seed : Option ℤ) (hs0 : 0 < s0) (hsteps : 1 ≤ steps) :
    ∃ l : List ℝ, simulate_gbm ofSeed fresh s0 mu sigma T steps seed = .ok l ∧
      l.length = steps.toNat + 1 ∧ l.head? = some s0 ∧ ∀ p ∈ l, 0 < p := by
  have hne : steps ≠ 0 := by omega
  refine ⟨_, simulate_gbm_ok ofSeed fresh s0 mu sigma T steps seed hne, ?_, ?_, ?_⟩
  · simp
  · rw [List.range_succ_eq_map]
    simp
  · intro p hp
    rw [List.mem_map] at hp
    obtain ⟨i, _, rfl⟩ := hp
    exact mul_pos hs0 (Real.exp_pos _)

lemma simulate_stock_data_path_props (fresh : ℕ → ℝ) (s0 mu sigma : ℝ) (ty td : ℤ)
    (seed : ℤ) (hs0 : 0 < s0) (htd : 1 ≤ td) (hn : 0 ≤ ty * td) :
    ∃ l : List ℝ, simulate_stock_data fresh s0 mu sigma ty td seed = .ok l ∧
      l.length = (ty * td).toNat ∧ ∀ p ∈ l, 0 < p := by
  have htd' : td ≠ 0 := by omega
  refine ⟨_, simulate_stock_data_ok fresh s0 mu sigma ty td seed htd' (not_lt.2 hn), ?_, ?_⟩
  · simp
  · intro p hp
    rw [List.mem_map] at hp
    obtain ⟨i, _, rfl⟩ := hp
    exact Real.exp_pos _

/-! ### Claim theorems -/

/-- C1: for every spot, strike and `time_to_maturity ≤ 0`, both call pricers return
exactly `max (spot - strike) 0`, taking the intrinsic-value branch (no `d1`/`d2`
computation is involved in this branch). -/
theorem C1_intrinsic_at_expiry (spot strike T rate vol dividend : ℝ) (hT : T ≤ 0) :
    black_scholes_call_price spot strike T rate vol dividend = max (spot - strike) 0 ∧
    black_scholes_call spot strike T rate vol = max (spot - strike) 0 := by
  constructor
  · simp only [black_scholes_call_price, if_pos hT]
  · simp only [black_scholes_call, if_pos hT]

theorem C1_intrinsic_at_expiry_witness : (0:ℝ) ≤ 0 ∧
    black_scholes_call_price 5 3 0 1 1 0 = max (5 - 3 : ℝ) 0 ∧
    black_scholes_call 5 3 0 1 1 = max (5 - 3 : ℝ) 0 :=
  ⟨le_refl 0, (C1_intrinsic_at_expiry 5 3 0 1 1 0 (le_refl 0)).1,
    (C1_intrinsic_at_expiry 5 3 0 1 1 0 (le_refl 0)).2⟩

/-- C10: for `time_to_maturity ≤ 0` the result of either pricer does not depend on
rate, volatility, or dividend yield: any two parameterisations agree and the common
value is `max (spot - strike) 0`. -/
theorem C10_expired_independent_of_params (s k T r1 v1 q1 r2 v2 q2 : ℝ) (hT : T ≤ 0) :
    black_scholes_call_price s k T r1 v1 q1 = black_scholes_call_price s k T r2 v2 q2 ∧
    black_scholes_call s k T r1 v1 = black_scholes_call s k T r2 v2 ∧
    black_scholes_call_price s k T r1 v1 q1 = max (s - k) 0 := by
  refine ⟨?_, ?_, ?_⟩ <;>
    simp only [black_scholes_call_price, black_scholes_call, if_pos hT]

theorem C10_expired_independent_of_params_witness : (-1:ℝ) ≤ 0 ∧
    black_scholes_call_price 7 2 (-1) 1 2 3 = black_scholes_call_price 7 2 (-1) 4 5 6 ∧
    black_scholes_call 7 2 (-1) 1 2 = black_scholes_call 7 2 (-1) 4 5 ∧
    black_scholes_call_price 7 2 (-1) 1 2 3 = max (7 - 2 : ℝ) 0 := by
  refine ⟨by norm_num, ?_, ?_, ?_⟩
  · exact (C10_expired_independent_of_params 7 2 (-1) 1 2 3 4 5 6 (by norm_num)).1
  · exact (C10_expired_independent_of_params 7 2 (-1) 1 2 3 4 5 6 (by norm_num)).2.1
  · exact (C10_expired_independent_of_params 7 2 (-1) 1 2 3 4 5 6 (by norm_num)).2.2

/-- C8: with dividend yield 0, the pricer of simulation.py coincides with the
pricer of simulation2.py at every spot, strike, maturity, rate and volatility. -/
theorem C8_pricers_agree_without_dividend (s k T r v : ℝ) (hs : 0 < s) (hk : 0 < k) :
    black_scholes_call_price s k T r v 0 = black_scholes_call s k T r v :=
  bsp_eq_bsc s k T r v

theorem C8_pricers_agree_without_dividend_witness : (0:ℝ) < 1 ∧
    black_scholes_call_price 1 1 1 0 1 0 = black_scholes_call 1 1 1 0 1 :=
  ⟨by norm_num, C8_pricers_agree_without_dividend 1 1 1 0 1 (by norm_num) (by norm_num)⟩

/-- C2: `simulate_gbm` with a provided seed is a deterministic function of the
parameters and the seed: the ambient generator state (`fresh`) is irrelevant.
`simulate_stock_data`, however, never reads its `seed` argument and re-seeds the
global generator from fresh OS entropy, so two invocations with identical
parameters and the identical seed 42 return different paths as soon as the
entropy-determined normal draws differ (here streams 0 and 1). -/
theorem C2_seed_determinism :
    (∀ (ofSeed : ℤ → ℕ → ℝ) (fresh1 fresh2 : ℕ → ℝ) (s0 mu sigma T : ℝ) (steps : ℤ)
        (s : ℤ),
      simulate_gbm ofSeed fresh1 s0 mu sigma T steps (some s)
        = simulate_gbm ofSeed fresh2 s0 mu sigma T steps (some s)) ∧
    simulate_stock_data (fun _ => 0) 1 0 1 1 1 42
      ≠ simulate_stock_data (fun _ => 1) 1 0 1 1 1 42 := by
  constructor
  · intro ofSeed f1 f2 s0 mu sigma T steps s
    rfl
  · have e1 : simulate_stock_data (fun _ => 0) 1 0 1 1 1 42
        = .ok [Real.exp (-(1/2))] := by
      rw [simulate_stock_data_ok _ _ _ _ _ _ _ (by norm_num) (by norm_num)]
      norm_num [List.range_succ, Finset.sum_range_succ]
    have e2 : simulate_stock_data (fun _ => 1) 1 0 1 1 1 42
        = .ok [Real.exp (1/2)] := by
      rw [simulate_stock_data_ok _ _ _ _ _ _ _ (by norm_num) (by norm_num)]
      norm_num [List.range_succ, Finset.sum_range_succ]
    rw [e1, e2]
    intro h
    rw [Except.ok.injEq, List.cons.injEq] at h
    have h2 := h.1
    rw [Real.exp_eq_exp] at h2
    norm_num at h2

/-- C3 counterexample: with trading_years = 1(year) and trading_days = 2 the
simulate_stock_data path has 2 points (one per draw), not step_count + 1 = 3. -/
theorem C3_length_counterexample :
    (simulate_stock_data (fun _ => 0) 100 0 0 1 2 0).toOption.map List.length
      ≠ some 3 := by
  rw [simulate_stock_data_ok _ _ _ _ _ _ _ (by norm_num) (by norm_num)]
  simp [Except.toOption]

/-- C3 (amended): `simulate_gbm` returns a path of exactly steps + 1 points whose
first price is s0 exactly and whose prices are all strictly positive.
`simulate_stock_data` instead returns exactly trading_years * trading_days points
(one per draw, the initial point is absent), all strictly positive, and its first
point is s0 * exp(first log-return) rather than s0. -/
theorem C3_path_shape :
    (∀ (ofSeed : ℤ → ℕ → ℝ) (fresh : ℕ → ℝ) (s0 mu sigma T : ℝ) (steps : ℤ)
        (seed : Option ℤ), 0 < s0 → 1 ≤ steps →
      ∃ l : List ℝ, simulate_gbm ofSeed fresh s0 mu sigma T steps seed = .ok l ∧
        l.length = steps.toNat + 1 ∧ l.head? = some s0 ∧ ∀ p ∈ l, 0 < p) ∧
    (∀ (fresh : ℕ → ℝ) (s0 mu sigma : ℝ) (ty td : ℤ) (seed : ℤ), 0 < s0 → 1 ≤ td →
        1 ≤ ty * td →
      ∃ l : List ℝ, simulate_stock_data fresh s0 mu sigma ty td seed = .ok l ∧
        l.length = (ty * td).toNat ∧
        l.head? = some (s0 * Real.exp ((mu - 0.5 * sigma ^ 2) * (1 / (td : ℝ)) +
          sigma * Real.sqrt (1 / (td : ℝ)) * fresh 0)) ∧
        ∀ p ∈ l, 0 < p) := by
  constructor
  · intro ofSeed fresh s0 mu sigma T steps seed hs0 hsteps
    exact simulate_gbm_path_props ofSeed fresh s0 mu sigma T steps seed hs0 hsteps
  · intro fresh s0 mu sigma ty td seed hs0 htd hn
    have htd' : td ≠ 0 := by omega
    refine ⟨_, simulate_stock_data_ok fresh s0 mu sigma ty td seed htd'
      (not_lt.2 (by omega)), ?_, ?_, ?_⟩
    · simp
    · have hpos : (ty * td).toNat = ((ty * td).toNat - 1) + 1 := by omega
      rw [hpos, List.range_succ_eq_map]
      simp only [List.map_cons, List.head?_cons, Option.some.injEq]
      rw [Finset.sum_range_one, Real.exp_add, Real.exp_log hs0]
    · intro p hp
      rw [List.mem_map] at hp
      obtain ⟨i, _, rfl⟩ := hp
      exact Real.exp_pos _

theorem C3_path_shape_witness : (0:ℝ) < 100 ∧
    (∃ l : List ℝ, simulate_gbm (fun _ _ => 0) (fun _ => 0) 100 0 0 1 2 none = .ok l ∧
      l.length = (2:ℤ).toNat + 1 ∧ l.head? = some 100 ∧ ∀ p ∈ l, 0 < p) ∧
    (∃ l : List ℝ, simulate_stock_data (fun _ => 0) 100 0 0 1 2 0 = .ok l ∧
      l.length = ((1:ℤ) * 2).toNat ∧
      l.head? = some (100 * Real.exp ((0 - 0.5 * 0 ^ 2) * (1 / ((2:ℤ) : ℝ)) +
        0 * Real.sqrt (1 / ((2:ℤ) : ℝ)) * 0)) ∧
      ∀ p ∈ l, 0 < p) :=
  ⟨by norm_num,
    C3_path_shape.1 (fun _ _ => 0) (fun _ => 0) 100 0 0 1 2 none (by norm_num) (by norm_num),
    C3_path_shape.2 (fun _ => 0) 100 0 0 1 2 0 (by norm_num) (by norm_num) (by norm_num)⟩

/-- C5: the code never raises InvalidParameter for step_count < 1.  At
step_count = 0, `simulate_gbm` hits the float division `dt = T / steps` by an
integer zero (ZeroDivisionError), and `simulate_stock_data` likewise at
trading_days = 0; at step_count = -1 `simulate_gbm` silently succeeds, returning
the single-point path [s0]. -/
theorem C5_no_invalid_parameter :
    simulate_gbm (fun _ _ => 0) (fun _ => 0) 100 0 (1/5) 1 0 (some 1)
        = .error .zeroDivisionError ∧
    simulate_gbm (fun _ _ => 0) (fun _ => 0) 100 0 (1/5) 1 (-1) (some 1) = .ok [100] ∧
    simulate_stock_data (fun _ => 0) 100 0 (1/5) 1 0 42 = .error .zeroDivisionError := by
  refine ⟨?_, ?_, ?_⟩
  · simp [simulate_gbm]
  · norm_num [simulate_gbm]
    simp [show ((-1:ℤ)).toNat = 0 from rfl]
  · simp [simulate_stock_data]

/-- C4: with volatility 0 and maturity 1 > 0 neither pricer fails: the `T ≤ 0`
guard is passed and the `d1`/`d2` expressions are evaluated, returning a real
number.  In this embedding, real division by the zero denominator
`volatility * sqrt T` gives `d1 = d2 = 0` and the value below; under IEEE floats
the code returns `100 - 100 * exp (-1/20)` with `d1 = inf`.  In either semantics
the code simply returns a number: no InvalidParameter failure occurs. -/
theorem C4_zero_vol_returns_number :
    black_scholes_call 100 100 1 (1/20) 0 = 50 - 50 * Real.exp (-(1/20 : ℝ)) ∧
    black_scholes_call_price 100 100 1 (1/20) 0 0 = 50 - 50 * Real.exp (-(1/20 : ℝ)) := by
  have hbs : black_scholes_call 100 100 1 (1/20) 0 = 50 - 50 * Real.exp (-(1/20 : ℝ)) := by
    rw [bsc_pos_T 100 100 1 (1/20) 0 (by norm_num)]
    norm_num [stdNormCdf_zero]
    ring
  exact ⟨hbs, by rw [bsp_eq_bsc]; exact hbs⟩

/-- C6: for valid inputs (positive spot and strike, nonnegative maturity,
positive volatility whenever the maturity is positive, nonnegative dividend
yield) both pricers return a value between 0 and the spot price. -/
theorem C6_price_bounds (S K T r sigma q : ℝ) (hS : 0 < S) (hK : 0 < K) (hT0 : 0 ≤ T)
    (hsig : 0 < T → 0 < sigma) (hq : 0 ≤ q) :
    (0 ≤ black_scholes_call_price S K T r sigma q ∧
      black_scholes_call_price S K T r sigma q ≤ S) ∧
    (0 ≤ black_scholes_call S K T r sigma ∧ black_scholes_call S K T r sigma ≤ S) := by
  have h1 := bsp_nonneg S K T r sigma q hS hK hT0 hsig
  have h2 := bsp_le_spot S K T r sigma q hS hK hT0 hq
  have h3 := bsp_nonneg S K T r sigma 0 hS hK hT0 hsig
  have h4 := bsp_le_spot S K T r sigma 0 hS hK hT0 (le_refl 0)
  rw [bsp_eq_bsc] at h3 h4
  exact ⟨⟨h1, h2⟩, h3, h4⟩

theorem C6_price_bounds_witness : (0:ℝ) < 2 ∧
    (0 ≤ black_scholes_call_price 2 1 0 0 1 0 ∧ black_scholes_call_price 2 1 0 0 1 0 ≤ 2) ∧
    (0 ≤ black_scholes_call 2 1 0 0 1 ∧ black_scholes_call 2 1 0 0 1 ≤ 2) :=
  ⟨by norm_num, C6_price_bounds 2 1 0 0 1 0 (by norm_num) (by norm_num) (le_refl 0)
    (fun _ => one_pos) (le_refl 0)⟩

/-- C7 counterexample: with a positive dividend yield the price is not
non-decreasing in the time to maturity even at rate 0: at spot 100, strike 1,
volatility 1/5, dividend yield 5, the price at maturity 10 is strictly below the
price at maturity 0 (which is the intrinsic value 99). -/
theorem C7_maturity_counterexample :
    black_scholes_call_price 100 1 10 0 (1/5) 5
      < black_scholes_call_price 100 1 0 0 (1/5) 5 := by
  have hT0 : black_scholes_call_price 100 1 0 0 (1/5) 5 = max (100 - 1 : ℝ) 0 := by
    simp only [black_scholes_call_price, if_pos (le_refl (0:ℝ))]
  have h99 : max (100 - 1 : ℝ) 0 = 99 := by norm_num
  rw [hT0, h99, bsp_pos_T 100 1 10 0 (1/5) 5 (by norm_num)]
  rw [show (-5 : ℝ) * 10 = -50 by norm_num, show (-0 : ℝ) * 10 = 0 by norm_num,
    Real.exp_zero]
  have hA : (100:ℝ) * Real.exp (-50) * stdNormCdf ((Real.log (100 / 1) + (0 - 5 + 0.5 * (1/5) ^ 2) * 10) / (1/5 * Real.sqrt 10)) ≤ 100 * Real.exp (-50) := by
    have h := mul_le_mul_of_nonneg_left
      (stdNormCdf_le_one ((Real.log ((100:ℝ) / 1) + (0 - 5 + 0.5 * (1/5) ^ 2) * 10) / (1/5 * Real.sqrt 10)))
      (show (0:ℝ) ≤ 100 * Real.exp (-50) by positivity)
    simpa using h
  have hB : (0:ℝ) ≤ stdNormCdf ((Real.log (100 / 1) + (0 - 5 + 0.5 * (1/5) ^ 2) * 10) / (1/5 * Real.sqrt 10) - 1/5 * Real.sqrt 10) :=
    stdNormCdf_nonneg _
  have h1 : Real.exp (-50 : ℝ) ≤ Real.exp (-1 : ℝ) := Real.exp_le_exp.2 (by norm_num)
  have h2 : Real.exp (-1 : ℝ) < 1/2 := by
    have h3 : (2:ℝ) < Real.exp 1 := by
      have := Real.exp_one_gt_d9
      linarith
    have hm : Real.exp (-1:ℝ) * Real.exp 1 = 1 := by
      rw [← Real.exp_add]
      norm_num
    nlinarith [Real.exp_pos (-1:ℝ)]
  have hC : (100:ℝ) * Real.exp (-50) < 99 := by linarith
  linarith

/-- C7 (amended): both pricers are non-decreasing in the volatility (any dividend
yield, volatility moving in the valid range 0 < σ1 ≤ σ2), and non-decreasing in
the time to maturity when rate ≥ 0 provided the dividend yield is zero — i.e. for
black_scholes_call and for black_scholes_call_price with dividend 0.  With a
positive dividend yield the price can decrease in the maturity. -/
theorem C7_monotonicity (S K r q sigma s1 s2 T T1 T2 : ℝ)
    (hS : 0 < S) (hK : 0 < K) (hs1 : 0 < s1) (hs12 : s1 ≤ s2) (hr : 0 ≤ r)
    (hsig : 0 < sigma) (hT12 : T1 ≤ T2) :
    black_scholes_call_price S K T r s1 q ≤ black_scholes_call_price S K T r s2 q ∧
    black_scholes_call S K T r s1 ≤ black_scholes_call S K T r s2 ∧
    black_scholes_call S K T1 r sigma ≤ black_scholes_call S K T2 r sigma ∧
    black_scholes_call_price S K T1 r sigma 0 ≤ black_scholes_call_price S K T2 r sigma 0 := by
  refine ⟨bsp_mono_sigma S K T r q hS hK s1 s2 hs1 hs12, ?_,
    bsc_mono_T S K r sigma hS hK hr hsig T1 T2 hT12, ?_⟩
  · have h := bsp_mono_sigma S K T r 0 hS hK s1 s2 hs1 hs12
    rwa [bsp_eq_bsc, bsp_eq_bsc] at h
  · rw [bsp_eq_bsc, bsp_eq_bsc]
    exact bsc_mono_T S K r sigma hS hK hr hsig T1 T2 hT12

theorem C7_monotonicity_witness : (0:ℝ) < 1 ∧
    black_scholes_call_price 1 1 0 0 1 0 ≤ black_scholes_call_price 1 1 0 0 2 0 ∧
    black_scholes_call 1 1 0 0 1 ≤ black_scholes_call 1 1 0 0 2 ∧
    black_scholes_call 1 1 0 0 1 ≤ black_scholes_call 1 1 1 0 1 ∧
    black_scholes_call_price 1 1 0 0 1 0 ≤ black_scholes_call_price 1 1 1 0 1 0 := by
  have h := C7_monotonicity 1 1 0 0 1 1 2 0 0 1 (by norm_num) (by norm_num) (by norm_num)
    (by norm_num) (by norm_num) (by norm_num) (by norm_num)
  exact ⟨by norm_num, h.1, h.2.1, h.2.2.1, h.2.2.2⟩

/-! ### Rigorous numerics for the reference price at spot = strike = 100 -/

lemma exp_twentieth_bounds :
    (1.0512705 : ℝ) ≤ Real.exp (1/20) ∧ Real.exp (1/20) ≤ (1.0512712 : ℝ) := by
  have habs : |(1:ℝ)/20| = 1/20 := by
    rw [abs_of_nonneg (by norm_num : (0:ℝ) ≤ 1/20)]
  have h := Real.exp_bound (x := 1/20) (by rw [habs]; norm_num) (n := 4) (by norm_num)
  have hsum : ∑ i ∈ Finset.range 4, ((1:ℝ)/20) ^ i / i.factorial
      = 1 + 1/20 + 1/800 + 1/48000 := by
    norm_num [Finset.sum_range_succ, Nat.factorial]
  have hc : (((4:ℕ).succ : ℝ)) / (((4:ℕ).factorial : ℝ) * ((4:ℕ) : ℝ)) = 5/96 := by
    norm_num [Nat.factorial]
  rw [hsum, habs, hc] at h
  have h2 := abs_le.1 h
  constructor
  · linarith [h2.1]
  · linarith [h2.2]

lemma sqrt_two_pi_bounds : (2.50662 : ℝ) < Real.sqrt (2 * Real.pi) ∧
    Real.sqrt (2 * Real.pi) < (2.50663 : ℝ) := by
  have hl : (3.141592 : ℝ) < Real.pi := Real.pi_gt_d6
  have hu : Real.pi < (3.141593 : ℝ) := Real.pi_lt_d6
  constructor
  · rw [show (2.50662 : ℝ) = Real.sqrt (2.50662 ^ 2) by
      rw [Real.sqrt_sq (by norm_num)]]
    apply Real.sqrt_lt_sqrt (by positivity)
    nlinarith
  · rw [show (2.50663 : ℝ) = Real.sqrt (2.50663 ^ 2) by
      rw [Real.sqrt_sq (by norm_num)]]
    apply Real.sqrt_lt_sqrt (by positivity)
    nlinarith

lemma gauss_pointwise (t : ℝ) (h2 : t ^ 2 ≤ 2) :
    1 - t^2/2 + t^4/8 - t^6/36 ≤ Real.exp (-(t^2)/2) ∧
    Real.exp (-(t^2)/2) ≤ 1 - t^2/2 + t^4/8 + t^6/36 := by
  have hneg : (-(t^2)/2 : ℝ) ≤ 0 := by nlinarith [sq_nonneg t]
  have habs : |(-(t^2)/2 : ℝ)| = t^2/2 := by
    rw [abs_of_nonpos hneg]
    ring
  have hx : |(-(t^2)/2 : ℝ)| ≤ 1 := by
    rw [habs]
    nlinarith
  have h := Real.exp_bound hx (n := 3) (by norm_num)
  have hsum : ∑ i ∈ Finset.range 3, ((-(t^2)/2 : ℝ)) ^ i / i.factorial
      = 1 - t^2/2 + t^4/8 := by
    norm_num [Finset.sum_range_succ, Nat.factorial]
    ring
  have hc : (((3:ℕ).succ : ℝ)) / (((3:ℕ).factorial : ℝ) * ((3:ℕ) : ℝ)) = 2/9 := by
    norm_num [Nat.factorial]
  rw [hsum, habs, hc] at h
  have h3 := abs_le.1 h
  constructor
  · nlinarith [h3.1]
  · nlinarith [h3.2]

lemma int_gauss_poly (x a : ℝ) :
    ∫ t in (0:ℝ)..x, (1 - t^2/2 + t^4/8 + a * t^6)
      = x - x^3/6 + x^5/40 + a * x^7/7 := by
  have hderiv : ∀ t ∈ uIcc (0:ℝ) x,
      HasDerivAt (fun t : ℝ => t - t^3/6 + t^5/40 + a * t^7/7)
        (1 - t^2/2 + t^4/8 + a * t^6) t := by
    intro t _
    have h1 : HasDerivAt (fun t : ℝ => t) 1 t := hasDerivAt_id t
    have h3 := hasDerivAt_pow 3 t
    have h5 := hasDerivAt_pow 5 t
    have h7 := hasDerivAt_pow 7 t
    have hall := ((h1.sub (h3.div_const 6)).add (h5.div_const 40)).add
      ((h7.const_mul a).div_const 7)
    convert hall using 1
    push_cast
    ring
  rw [intervalIntegral.integral_eq_sub_of_hasDerivAt hderiv
    ((Continuous.intervalIntegrable (by continuity) 0 x))]
  ring

lemma gauss_interval_bounds (x : ℝ) (hx0 : 0 ≤ x) (hx1 : x ≤ 1) :
    x - x^3/6 + x^5/40 - x^7/252 ≤ (∫ t in (0:ℝ)..x, Real.exp (-(t^2)/2)) ∧
    (∫ t in (0:ℝ)..x, Real.exp (-(t^2)/2)) ≤ x - x^3/6 + x^5/40 + x^7/252 := by
  have hcont : Continuous fun t : ℝ => Real.exp (-(t^2)/2) := by continuity
  have hint : IntervalIntegrable (fun t : ℝ => Real.exp (-(t^2)/2)) volume 0 x :=
    hcont.intervalIntegrable 0 x
  constructor
  · have hle : ∀ t ∈ Icc (0:ℝ) x,
        (1 - t^2/2 + t^4/8 + (-(1:ℝ)/36) * t^6) ≤ Real.exp (-(t^2)/2) := by
      intro t ht
      have ht2 : t ^ 2 ≤ 2 := by nlinarith [ht.1, ht.2]
      have hg := (gauss_pointwise t ht2).1
      nlinarith [hg]
    have hm := intervalIntegral.integral_mono_on hx0
      ((Continuous.intervalIntegrable (by continuity) 0 x)) hint hle
    rw [int_gauss_poly x (-(1:ℝ)/36)] at hm
    nlinarith [hm]
  · have hle : ∀ t ∈ Icc (0:ℝ) x,
        Real.exp (-(t^2)/2) ≤ (1 - t^2/2 + t^4/8 + ((1:ℝ)/36) * t^6) := by
      intro t ht
      have ht2 : t ^ 2 ≤ 2 := by nlinarith [ht.1, ht.2]
      have hg := (gauss_pointwise t ht2).2
      nlinarith [hg]
    have hm := intervalIntegral.integral_mono_on hx0 hint
      ((Continuous.intervalIntegrable (by continuity) 0 x)) hle
    rw [int_gauss_poly x ((1:ℝ)/36)] at hm
    nlinarith [hm]

lemma stdNormCdf_as_integral (x : ℝ) :
    stdNormCdf x = 1/2 + (∫ t in (0:ℝ)..x, Real.exp (-(t^2)/2)) / Real.sqrt (2 * Real.pi) := by
  have h := stdNormCdf_sub 0 x
  rw [stdNormCdf_zero] at h
  have h2 : (∫ t in (0:ℝ)..x, stdNormPdf t)
      = ∫ t in (0:ℝ)..x, Real.exp (-(t^2)/2) / Real.sqrt (2 * Real.pi) := rfl
  rw [intervalIntegral.integral_div] at h2
  rw [h2] at h
  linarith

/-- C9: the reference scenario spot = strike = 100, time_to_maturity = 1,
rate = 0.05, volatility = 0.2 (dividend yield 0): both pricers return a value
within 0.01 of 10.45. -/
theorem C9_reference_price :
    |black_scholes_call 100 100 1 (1/20) (1/5) - 10.45| ≤ 0.01 ∧
    |black_scholes_call_price 100 100 1 (1/20) (1/5) 0 - 10.45| ≤ 0.01 := by
  have e : black_scholes_call 100 100 1 (1/20) (1/5)
      = 100 * stdNormCdf (7/20) - 100 * Real.exp (-(1/20)) * stdNormCdf (3/20) := by
    rw [bsc_pos_T 100 100 1 (1/20) (1/5) one_pos]
    norm_num [Real.sqrt_one]
  have hmain : |black_scholes_call 100 100 1 (1/20) (1/5) - 10.45| ≤ 0.01 := by
    rw [e, Real.exp_neg, stdNormCdf_as_integral (7/20), stdNormCdf_as_integral (3/20)]
    have hI1 := gauss_interval_bounds (7/20) (by norm_num) (by norm_num)
    have hI2 := gauss_interval_bounds (3/20) (by norm_num) (by norm_num)
    norm_num at hI1 hI2
    set I1 := ∫ t in (0:ℝ)..(7/20 : ℝ), Real.exp (-(t^2)/2) with hI1def
    set I2 := ∫ t in (0:ℝ)..(3/20 : ℝ), Real.exp (-(t^2)/2) with hI2def
    set w := Real.sqrt (2 * Real.pi) with hwdef
    have hw := sqrt_two_pi_bounds
    have hwpos : (0:ℝ) < w := sqrt_two_pi_pos
    rw [← hwdef] at hw
    have hE := exp_twentieth_bounds
    have hq1lo : (0.136829 : ℝ) ≤ I1 / w := by
      have h2 : (0.3429829 : ℝ) / 2.50663 ≤ 0.3429829 / w :=
        div_le_div_of_nonneg_left (by norm_num) hwpos hw.2.le
      have h3 : (0.3429829 : ℝ) / w ≤ I1 / w := by
        apply div_le_div_of_nonneg_right _ hwpos.le
        linarith [hI1.1]
      have h1 : (0.136829 : ℝ) ≤ (0.3429829 : ℝ) / 2.50663 := by norm_num
      linarith
    have hq1hi : I1 / w ≤ (0.136834 : ℝ) := by
      have h3 : I1 / w ≤ (0.3429881 : ℝ) / w := by
        apply div_le_div_of_nonneg_right _ hwpos.le
        linarith [hI1.2]
      have h2 : (0.3429881 : ℝ) / w ≤ 0.3429881 / 2.50662 :=
        div_le_div_of_nonneg_left (by norm_num) (by norm_num) hw.1.le
      have h1 : (0.3429881 : ℝ) / 2.50662 ≤ 0.136834 := by norm_num
      linarith
    have hq2lo : (0.059616 : ℝ) ≤ I2 / w := by
      have h2 : (0.1494393 : ℝ) / 2.50663 ≤ 0.1494393 / w :=
        div_le_div_of_nonneg_left (by norm_num) hwpos hw.2.le
      have h3 : (0.1494393 : ℝ) / w ≤ I2 / w := by
        apply div_le_div_of_nonneg_right _ hwpos.le
        linarith [hI2.1]
      have h1 : (0.059616 : ℝ) ≤ (0.1494393 : ℝ) / 2.50663 := by norm_num
      linarith
    have hq2hi : I2 / w ≤ (0.0596181 : ℝ) := by
      have h3 : I2 / w ≤ (0.1494395 : ℝ) / w := by
        apply div_le_div_of_nonneg_right _ hwpos.le
        linarith [hI2.2]
      have h2 : (0.1494395 : ℝ) / w ≤ 0.1494395 / 2.50662 :=
        div_le_div_of_nonneg_left (by norm_num) (by norm_num) hw.1.le
      have h1 : (0.1494395 : ℝ) / 2.50662 ≤ 0.0596181 := by norm_num
      linarith
    have hEinv_lo : (0.951229 : ℝ) ≤ (Real.exp (1/20))⁻¹ := by
      have h1 : (0.951229:ℝ) * Real.exp (1/20) ≤ 1 := by nlinarith [hE.2]
      calc (0.951229:ℝ) = 0.951229 * Real.exp (1/20) * (Real.exp (1/20))⁻¹ := by
            field_simp
        _ ≤ 1 * (Real.exp (1/20))⁻¹ := by
            apply mul_le_mul_of_nonneg_right h1 (by positivity)
        _ = (Real.exp (1/20))⁻¹ := one_mul _
    have hEinv_hi : (Real.exp (1/20))⁻¹ ≤ (0.95123 : ℝ) := by
      have h1 : (1:ℝ) ≤ 0.95123 * Real.exp (1/20) := by nlinarith [hE.1]
      calc (Real.exp (1/20))⁻¹ = 1 * (Real.exp (1/20))⁻¹ := (one_mul _).symm
        _ ≤ 0.95123 * Real.exp (1/20) * (Real.exp (1/20))⁻¹ := by
            apply mul_le_mul_of_nonneg_right h1 (by positivity)
        _ = 0.95123 := by field_simp
    have hΦ2pos : (0:ℝ) ≤ 1/2 + I2 / w := by linarith
    have hM_hi : (Real.exp (1/20))⁻¹ * (1/2 + I2 / w) ≤ 0.95123 * (1/2 + 0.0596181) := by
      apply mul_le_mul hEinv_hi (by linarith) hΦ2pos (by norm_num)
    have hM_lo : (0.951229 : ℝ) * (1/2 + 0.059616) ≤ (Real.exp (1/20))⁻¹ * (1/2 + I2 / w) := by
      apply mul_le_mul hEinv_lo (by linarith) (by norm_num) (by positivity)
    rw [abs_le]
    constructor
    · linarith [hM_hi, hq1lo]
    · linarith [hM_lo, hq1hi]
  refine ⟨hmain, ?_⟩
  rw [bsp_eq_bsc]
  exact hmain
